import Mathlib

/-!
Verification of the layout-driven table reconstruction engine of the
MI_Contributions_Expenditures repository.

Python strings are modelled as lists of Unicode code points (`Str := List Nat`);
all text operations used by the code (strip, lower, substring containment,
`str.replace`, the numeric regexes) are given executable ASCII-faithful
definitions. Pixel coordinates (pdfplumber `x0` / `top`) are modelled as
integers; the claims under study concern only comparisons and fixed offsets of
these coordinates. Fallible code paths (Python `ValueError` from `min()` on an
empty sequence, `IndexError` from list indexing) are modelled with
`Except` / `Option`.
-/

namespace Disclosure

/-- A Python string, as its list of code points. -/
abbrev Str := List Nat

/-- Code-point list of a Lean string literal (used to transcribe the Python
string constants of the source). -/
def codes (s : String) : Str := s.toList.map Char.toNat

/-- ASCII whitespace, the characters stripped by Python `str.strip()` and
matched by `\s` (ASCII scope). -/
def isSpaceCode (c : Nat) : Bool := c = 32 || c = 9 || c = 10 || c = 13 || c = 11 || c = 12

/-- ASCII decimal digit (`str.isdigit` / regex `[0-9]`). -/
def isDigitCode (c : Nat) : Bool := 48 ≤ c && c ≤ 57

/-- ASCII letter (`str.isalpha` / regex `[A-Za-z]`, ASCII scope). -/
def isAlphaCode (c : Nat) : Bool := (65 ≤ c && c ≤ 90) || (97 ≤ c && c ≤ 122)

/-- Python `str.lower()` on one code point (ASCII scope). -/
def lowerCode (c : Nat) : Nat := if 65 ≤ c && c ≤ 90 then c + 32 else c

/-- Python `str.lower()` (ASCII scope). -/
def lowerStr (s : Str) : Str := s.map lowerCode

/-- Python `str.strip()` (ASCII whitespace). -/
def stripStr (s : Str) : Str :=
  ((s.dropWhile isSpaceCode).reverse.dropWhile isSpaceCode).reverse

/-- Python substring test `pat in s`. -/
def containsSub (pat : Str) : Str → Bool
  | [] => pat.isEmpty
  | c :: rest => pat.isPrefixOf (c :: rest) || containsSub pat rest

/-- Worker for `removeAll`: `skip` counts pattern characters still to be
consumed from an occurrence already matched. -/
def removeAllGo (pat : Str) : Nat → Str → Str
  | _, [] => []
  | Nat.succ k, _ :: rest => removeAllGo pat k rest
  | 0, c :: rest =>
    if !pat.isEmpty && pat.isPrefixOf (c :: rest) then
      removeAllGo pat (pat.length - 1) rest
    else
      c :: removeAllGo pat 0 rest

/-- Python `s.replace(pat, "")` for a non-empty `pat`: one left-to-right pass
replacing non-overlapping occurrences (the removed span is not rescanned). -/
def removeAll (pat : Str) (s : Str) : Str := removeAllGo pat 0 s

/-- Worker for `findNumberRuns`: `cur` holds the code points of the run in
progress, in reverse. -/
def numberRunsGo : Str → Option Str → List Str
  | [], none => []
  | [], some run => [run.reverse]
  | c :: rest, none =>
    if isDigitCode c then numberRunsGo rest (some [c]) else numberRunsGo rest none
  | c :: rest, some run =>
    if isDigitCode c || c = 44 then numberRunsGo rest (some (c :: run))
    else run.reverse :: numberRunsGo rest none

/-- The captured groups of `AMOUNT_NUMBER_RE.findall` (pattern
`\$?\s*([0-9][0-9,]*)`): each maximal run of digits and commas that starts
with a digit, in left-to-right order.  The optional `\$?\s*` prefix never
changes the captured group. -/
def findNumberRuns (s : Str) : List Str := numberRunsGo s none

/-- Python `int()` of a non-empty decimal digit string. -/
def natOfDigits (s : Str) : Nat := s.foldl (fun acc c => acc * 10 + (c - 48)) 0

/-- `[int(match.replace(",", "")) for match in AMOUNT_NUMBER_RE.findall(text)]`.
For the single-character pattern `","`, `str.replace` is a filter. -/
def amountNumbers (text : Str) : List Int :=
  (findNumberRuns text).map (fun run => Int.ofNat (natOfDigits (run.filter (fun c => c ≠ 44))))

/-- The non-raising argument domain of `parse_amount_bounds`: `None`, a
numeric value on which `int()` succeeds (an `int`, or a finite `float`
represented by its `int()` truncation), or a string.  The full numeric
domain, including the non-finite floats on which the source's `int(amount)`
raises, is `AmountInputFull` below. -/
inductive AmountInput where
  | none : AmountInput
  | num (n : Int) : AmountInput
  | str (s : Str) : AmountInput

/-- The upper-bound phrase list of `parse_amount_bounds`. -/
def upperPhrases : List Str :=
  [codes "not more than", codes "no more than", codes "or less",
   codes "less than or equal", codes "less than", codes "up to", codes "at most"]

/-- The lower-bound phrase list of `parse_amount_bounds`. -/
def lowerPhrases : List Str :=
  [codes "more than", codes "at least", codes "greater than", codes "minimum"]

/-- `sanitized_lower = lower_text.replace("not more than", "").replace("no more than", "")`. -/
def sanitizedLower (lower : Str) : Str :=
  removeAll (codes "no more than") (removeAll (codes "not more than") lower)

/-- `has_range_indicator`: a `-` in the (case-preserved) text, or `between`,
or `from` together with `to`/`through`, in the lowercased text. -/
def hasRangeIndicator (text lower : Str) : Bool :=
  containsSub (codes "-") text || containsSub (codes "between") lower ||
    (containsSub (codes "from") lower &&
      (containsSub (codes "to") lower || containsSub (codes "through") lower))

/-- `has_upper_indicator`. -/
def hasUpperIndicator (lower : Str) : Bool :=
  upperPhrases.any (fun p => containsSub p lower)

/-- `has_lower_indicator` (tested against the sanitized lowercase text). -/
def hasLowerIndicator (sanitized : Str) : Bool :=
  lowerPhrases.any (fun p => containsSub p sanitized)

/-- First assignment block of `parse_amount_bounds`: the range branch. -/
def pabStep1 (hasRange hasUpper hasLower hasAnd : Bool) (len : Nat) (n0 last : Int) :
    Option Int × Option Int :=
  if hasRange || (2 ≤ len && (hasAnd || hasUpper || hasLower)) then
    (some n0, if 1 < len then some last else none)
  else (none, none)

/-- Second assignment block: the upper-indicator branch. -/
def pabStep2 (hasUpper : Bool) (len : Nat) (n0 last : Int) (mm : Option Int × Option Int) :
    Option Int × Option Int :=
  if hasUpper then ((if 1 < len then some n0 else mm.1), some last) else mm

/-- Third assignment block: `"or more"` overrides; otherwise a bare
lower-indicator fills in a missing minimum. -/
def pabStep3 (hasOrMore hasLower : Bool) (n0 last : Int) (mm : Option Int × Option Int) :
    Option Int × Option Int :=
  if hasOrMore then (some last, none)
  else if hasLower && mm.1 = none then (some n0, mm.2)
  else mm

/-- Final block: a single bare number with nothing assigned becomes both bounds. -/
def pabStep4 (len : Nat) (n0 : Int) (mm : Option Int × Option Int) :
    Option Int × Option Int :=
  if len = 1 && mm.1 = none && mm.2 = none then (some n0, some n0) else mm

/-- `parse_amount_bounds` (src/alaska_project/process_pofd_reports.py:75-142). -/
def parse_amount_bounds : AmountInput → Option Int × Option Int
  | .none => (none, none)
  | .num n => (some n, some n)
  | .str s =>
    let text := stripStr s
    if text.isEmpty then (none, none)
    else
      let lower := lowerStr text
      match amountNumbers text with
      | [] => (none, none)
      | n0 :: ns =>
        let numbers := n0 :: ns
        let sanitized := sanitizedLower lower
        let len := numbers.length
        let last := numbers.getLastD 0
        pabStep4 len n0
          (pabStep3 (containsSub (codes "or more") lower) (hasLowerIndicator sanitized) n0 last
            (pabStep2 (hasUpperIndicator lower) len n0 last
              (pabStep1 (hasRangeIndicator text lower) (hasUpperIndicator lower)
                (hasLowerIndicator sanitized) (containsSub (codes " and ") lower) len n0 last)))

/-! ### Basic lemmas about the string model -/

theorem dropWhile_eq_self_of {p : Nat → Bool} {s : Str} (h : ∀ c ∈ s, p c = false) :
    s.dropWhile p = s := by
  cases s with
  | nil => rfl
  | cons c rest =>
    rw [List.dropWhile_cons, h c (by simp)]
    simp

theorem stripStr_eq_self {s : Str} (h : ∀ c ∈ s, isSpaceCode c = false) :
    stripStr s = s := by
  unfold stripStr
  rw [dropWhile_eq_self_of h, dropWhile_eq_self_of (by simpa using h), List.reverse_reverse]

theorem mem_stripStr_sub {c : Nat} {s : Str} (h : c ∈ stripStr s) : c ∈ s := by
  unfold stripStr at h
  rw [List.mem_reverse] at h
  have h2 := (List.dropWhile_sublist _).subset h
  rw [List.mem_reverse] at h2
  exact (List.dropWhile_sublist _).subset h2

theorem lowerStr_eq_self {s : Str} (h : ∀ c ∈ s, c < 65) : lowerStr s = s := by
  unfold lowerStr
  have : List.map lowerCode s = List.map id s := by
    apply List.map_congr_left
    intro c hc
    have := h c hc
    simp only [lowerCode, id]
    rw [if_neg]
    simp only [Bool.and_eq_true, decide_eq_true_eq, not_and]
    omega
  rw [this, List.map_id]

theorem mem_of_containsSub {pat s : Str} (h : containsSub pat s = true) :
    ∀ c ∈ pat, c ∈ s := by
  induction s with
  | nil =>
    intro c hc
    simp only [containsSub, List.isEmpty_iff] at h
    simp [h] at hc
  | cons a rest ih =>
    intro c hc
    simp only [containsSub, Bool.or_eq_true] at h
    rcases h with h | h
    · exact (List.isPrefixOf_iff_prefix.mp h).subset hc
    · exact List.mem_cons_of_mem a (ih h c hc)

theorem containsSub_false_of_missing {pat s : Str} {c : Nat}
    (hc : c ∈ pat) (hs : c ∉ s) : containsSub pat s = false := by
  cases h : containsSub pat s with
  | false => rfl
  | true => exact absurd (mem_of_containsSub h c hc) hs

/-- A pattern holding a code point above 57 never occurs in a string whose
code points are all at most 57 (covers every keyword, which holds a lowercase
letter, against strings of digits, commas and `$`). -/
theorem containsSub_false_of_exceeds {pat s : Str}
    (hpat : ∃ c ∈ pat, 57 < c) (hs : ∀ c ∈ s, c ≤ 57) :
    containsSub pat s = false := by
  obtain ⟨c, hc, hgt⟩ := hpat
  refine containsSub_false_of_missing hc (fun hmem => ?_)
  exact absurd (hs c hmem) (by omega)

theorem mem_removeAllGo_sub {pat : Str} {c : Nat} :
    ∀ {k : Nat} {s : Str}, c ∈ removeAllGo pat k s → c ∈ s := by
  intro k s
  induction s generalizing k with
  | nil => intro h; cases k <;> simp [removeAllGo] at h
  | cons a rest ih =>
    intro h
    match k with
    | Nat.succ m =>
      simp only [removeAllGo] at h
      exact List.mem_cons_of_mem a (ih h)
    | 0 =>
      simp only [removeAllGo] at h
      split at h
      · exact List.mem_cons_of_mem a (ih h)
      · rcases List.mem_cons.mp h with h | h
        · simp [h]
        · exact List.mem_cons_of_mem a (ih h)

theorem mem_removeAll_sub {pat s : Str} {c : Nat} (h : c ∈ removeAll pat s) : c ∈ s :=
  mem_removeAllGo_sub h

theorem mem_sanitizedLower_sub {s : Str} {c : Nat} (h : c ∈ sanitizedLower s) : c ∈ s :=
  mem_removeAll_sub (mem_removeAll_sub h)

theorem numberRunsGo_none_of_no_digit {s : Str}
    (h : ∀ c ∈ s, isDigitCode c = false) : numberRunsGo s none = [] := by
  induction s with
  | nil => rfl
  | cons a rest ih =>
    simp only [numberRunsGo, h a (by simp)]
    exact ih (fun c hc => h c (List.mem_cons_of_mem a hc))

theorem numberRunsGo_all_in_class {s : Str}
    (h : ∀ c ∈ s, (isDigitCode c || c = 44) = true) :
    ∀ run, numberRunsGo s (some run) = [run.reverse ++ s] := by
  induction s with
  | nil => intro run; simp [numberRunsGo]
  | cons a rest ih =>
    intro run
    simp only [numberRunsGo, h a (by simp), if_pos]
    rw [ih (fun c hc => h c (List.mem_cons_of_mem a hc)) (a :: run)]
    simp

/-! ### C2: a bare dollar number parses to equal bounds -/

/-- C2: for every amount string consisting of a single dollar number with no
qualifying words — `'$'` followed by a run of digits and thousands-separator
commas starting with a digit — `parse_amount_bounds` returns `(min, max)` with
`min = max =` that number, commas stripped. -/
theorem parse_amount_bounds_single_dollar (d : Str) (hne : d ≠ [])
    (hhead : isDigitCode (d.headD 0) = true)
    (hall : ∀ c ∈ d, isDigitCode c = true ∨ c = 44) :
    parse_amount_bounds (.str (36 :: d)) =
      (some (Int.ofNat (natOfDigits (d.filter (fun c => c ≠ 44)))),
       some (Int.ofNat (natOfDigits (d.filter (fun c => c ≠ 44))))) := by
  have hdig : ∀ c ∈ d, (48 ≤ c ∧ c ≤ 57) ∨ c = 44 := by
    intro c hc
    rcases hall c hc with h | h
    · left; simpa [isDigitCode, Bool.and_eq_true, decide_eq_true_eq] using h
    · right; exact h
  have hle : ∀ c ∈ (36 :: d), c ≤ 57 := by
    intro c hc
    rcases List.mem_cons.mp hc with rfl | hc
    · omega
    · rcases hdig c hc with h | h <;> omega
  have hnospace : ∀ c ∈ (36 :: d), isSpaceCode c = false := by
    intro c hc
    have h36 : (36 : Nat) ≠ 32 := by omega
    rcases List.mem_cons.mp hc with rfl | hc
    · simp [isSpaceCode]
    · rcases hdig c hc with h | h <;>
        simp only [isSpaceCode, Bool.or_eq_false_iff, decide_eq_false_iff_not] <;> omega
  have hstrip : stripStr (36 :: d) = 36 :: d := stripStr_eq_self hnospace
  have hlower : lowerStr (36 :: d) = 36 :: d :=
    lowerStr_eq_self (fun c hc => by have := hle c hc; omega)
  obtain ⟨c0, rest, rfl⟩ : ∃ c0 rest, d = c0 :: rest := by
    cases d with
    | nil => exact absurd rfl hne
    | cons c0 rest => exact ⟨c0, rest, rfl⟩
  have hhead' : isDigitCode c0 = true := hhead
  have hruns : findNumberRuns (36 :: c0 :: rest) = [c0 :: rest] := by
    have h36 : isDigitCode 36 = false := by decide
    simp only [findNumberRuns, numberRunsGo, h36, Bool.false_eq_true, if_false, hhead', if_pos]
    rw [numberRunsGo_all_in_class (fun c hc => ?_) [c0]]
    · simp
    · rcases hdig c (List.mem_cons_of_mem c0 hc) with h | h
      · simp [isDigitCode, Bool.and_eq_true, decide_eq_true_eq]; omega
      · simp [h]
  have hnums : amountNumbers (36 :: c0 :: rest) =
      [Int.ofNat (natOfDigits ((c0 :: rest).filter (fun c => c ≠ 44)))] := by
    simp [amountNumbers, hruns]
  have hsanle : ∀ c ∈ sanitizedLower (36 :: c0 :: rest), c ≤ 57 :=
    fun c hc => hle c (mem_sanitizedLower_sub hc)
  have hdash : containsSub (codes "-") (36 :: c0 :: rest) = false := by
    refine containsSub_false_of_missing (c := 45) (by decide) (fun hmem => ?_)
    rcases List.mem_cons.mp hmem with h | hmem
    · omega
    · rcases hdig 45 hmem with h | h <;> omega
  have hrange : hasRangeIndicator (36 :: c0 :: rest) (36 :: c0 :: rest) = false := by
    simp only [hasRangeIndicator, hdash,
      containsSub_false_of_exceeds (show ∃ c ∈ codes "between", 57 < c by decide) hle,
      containsSub_false_of_exceeds (show ∃ c ∈ codes "from", 57 < c by decide) hle]
    rfl
  have hupper : hasUpperIndicator (36 :: c0 :: rest) = false := by
    simp only [hasUpperIndicator, upperPhrases, List.any_cons, List.any_nil,
      Bool.or_eq_false_iff]
    refine ⟨containsSub_false_of_exceeds (by decide) hle,
      containsSub_false_of_exceeds (by decide) hle,
      containsSub_false_of_exceeds (by decide) hle,
      containsSub_false_of_exceeds (by decide) hle,
      containsSub_false_of_exceeds (by decide) hle,
      containsSub_false_of_exceeds (by decide) hle,
      containsSub_false_of_exceeds (by decide) hle, trivial⟩
  have hlowerInd : hasLowerIndicator (sanitizedLower (36 :: c0 :: rest)) = false := by
    simp only [hasLowerIndicator, lowerPhrases, List.any_cons, List.any_nil,
      Bool.or_eq_false_iff]
    refine ⟨containsSub_false_of_exceeds (by decide) hsanle,
      containsSub_false_of_exceeds (by decide) hsanle,
      containsSub_false_of_exceeds (by decide) hsanle,
      containsSub_false_of_exceeds (by decide) hsanle, trivial⟩
  have hormore : containsSub (codes "or more") (36 :: c0 :: rest) = false :=
    containsSub_false_of_exceeds (by decide) hle
  simp only [parse_amount_bounds, hstrip, hlower, hnums, List.isEmpty_cons, if_false,
    List.length_cons, List.length_nil, hrange, hupper, hlowerInd, hormore,
    pabStep1, pabStep2, pabStep3, pabStep4]
  simp

/-- Witness for `parse_amount_bounds_single_dollar` at the concrete
input `"$5,000"`. -/
theorem parse_amount_bounds_single_dollar_witness :
    parse_amount_bounds (.str (codes "$5,000")) = (some 5000, some 5000) := by
  have h := parse_amount_bounds_single_dollar (codes "5,000") (by decide) (by decide)
    (by decide)
  simpa using h

/-! ### C3 / C4: upper-bound and `"or more"` phrases -/

/-- Counterexample to C3 as stated: `"not more than $5,000 at least $1,000"`
contains the phrase `"not more than $5,000"`, so the claim predicts
`max = 5000` (and `min` = the first number `5000`), but the code assigns
`max` from the **last** number of the string, yielding `(5000, 1000)`. -/
theorem parse_amount_bounds_not_more_than_counterexample :
    parse_amount_bounds (.str (codes "not more than $5,000 at least $1,000")) =
        (some 5000, some 1000) ∧
      parse_amount_bounds (.str (codes "not more than $5,000 at least $1,000")) ≠
        (some 5000, some 5000) := by
  constructor
  · decide
  · decide

/-- C3 amended: if the lowercased stripped text contains `"not more than"`,
holds at least one number, holds no `"or more"`, no surviving lower-bound
indicator, and no range indicator, then `max` is the **last** number of the
string and `min` is unset unless a second number is present, in which case
`min` is the first number. -/
theorem parse_amount_bounds_not_more_than (s : Str)
    (hnums : amountNumbers (stripStr s) ≠ [])
    (hnot : containsSub (codes "not more than") (lowerStr (stripStr s)) = true)
    (hor : containsSub (codes "or more") (lowerStr (stripStr s)) = false)
    (hlow : hasLowerIndicator (sanitizedLower (lowerStr (stripStr s))) = false)
    (hrange : hasRangeIndicator (stripStr s) (lowerStr (stripStr s)) = false) :
    parse_amount_bounds (.str s) =
      ((if 1 < (amountNumbers (stripStr s)).length
          then some ((amountNumbers (stripStr s)).headD 0) else none),
       some ((amountNumbers (stripStr s)).getLastD 0)) := by
  have hupper : hasUpperIndicator (lowerStr (stripStr s)) = true := by
    simp [hasUpperIndicator, upperPhrases, hnot]
  have htext : (stripStr s).isEmpty = false := by
    cases h : stripStr s with
    | nil => rw [h] at hnums; exact absurd rfl hnums
    | cons a l => rfl
  cases hns : amountNumbers (stripStr s) with
  | nil => exact absurd hns hnums
  | cons n0 ns =>
    simp only [parse_amount_bounds, htext, Bool.false_eq_true, if_false, hns]
    cases ns with
    | nil =>
      simp [pabStep1, pabStep2, pabStep3, pabStep4, hrange, hupper, hlow, hor]
    | cons n1 ns' =>
      have hlen : 1 < (n0 :: n1 :: ns').length := by simp
      simp [pabStep1, pabStep2, pabStep3, pabStep4, hrange, hupper, hlow, hor, hlen]

/-- Witness for `parse_amount_bounds_not_more_than` at `"not more than $1,000"`. -/
theorem parse_amount_bounds_not_more_than_witness :
    parse_amount_bounds (.str (codes "not more than $1,000")) = (none, some 1000) := by
  have h := parse_amount_bounds_not_more_than (codes "not more than $1,000")
    (by decide) (by decide) (by decide) (by decide) (by decide)
  simpa using h

/-- Counterexample to C4 as stated: `"$5,000 or more plus $9,999"` contains the
phrase `"$5,000 or more"`, so the claim predicts `min = 5000`, but the code
assigns `min` from the **last** number of the string, yielding `(9999, none)`. -/
theorem parse_amount_bounds_or_more_counterexample :
    parse_amount_bounds (.str (codes "$5,000 or more plus $9,999")) = (some 9999, none) ∧
      parse_amount_bounds (.str (codes "$5,000 or more plus $9,999")) ≠
        (some 5000, none) := by
  constructor
  · decide
  · decide

/-- C4 amended: for every string whose lowercased stripped text contains
`"or more"` and which holds at least one number, parsing yields
`min` = the **last** number of the string (which is `X` whenever `$X or more`
closes the string) and `max` unset, this rule being applied last and
overriding any prior assignment from range or upper-bound indicators. -/
theorem parse_amount_bounds_or_more (s : Str)
    (hnums : amountNumbers (stripStr s) ≠ [])
    (hor : containsSub (codes "or more") (lowerStr (stripStr s)) = true) :
    parse_amount_bounds (.str s) =
      (some ((amountNumbers (stripStr s)).getLastD 0), none) := by
  have htext : (stripStr s).isEmpty = false := by
    cases h : stripStr s with
    | nil => rw [h] at hnums; exact absurd rfl hnums
    | cons a l => rfl
  cases hns : amountNumbers (stripStr s) with
  | nil => exact absurd hns hnums
  | cons n0 ns =>
    simp only [parse_amount_bounds, htext, Bool.false_eq_true, if_false, hns]
    simp [pabStep3, pabStep4, hor]

/-- Witness for `parse_amount_bounds_or_more` at `"$5,000 or more"`. -/
theorem parse_amount_bounds_or_more_witness :
    parse_amount_bounds (.str (codes "$5,000 or more")) = (some 5000, none) := by
  have h := parse_amount_bounds_or_more (codes "$5,000 or more") (by decide) (by decide)
  simpa using h

/-! ### C10: edge inputs --- and the numeric inputs on which `int()` raises

`parse_amount_bounds` starts with `if isinstance(amount, (int, float)):
value = int(amount)`.  Python's `int()` succeeds on every `int` and every
finite `float` (truncating), but raises `ValueError` on `float('nan')` and
`OverflowError` on the infinities.  A float is observed by this function only
through `int()`, so the numeric domain is modelled by that observation:
finite values by their truncation, the three non-finite values by name. -/

/-- The exceptions `int()` can raise on a numeric argument. -/
inductive PyError where
  | valueError : PyError
  | overflowError : PyError
deriving DecidableEq

/-- A Python numeric (`int` or `float`) as `parse_amount_bounds` observes it. -/
inductive PyNumber where
  | int (n : Int) : PyNumber
  | finiteFloat (trunc : Int) : PyNumber
  | nan : PyNumber
  | posInf : PyNumber
  | negInf : PyNumber
deriving DecidableEq

/-- Python `int(x)` on a numeric: truncation on finite values, `ValueError`
on NaN, `OverflowError` on the infinities. -/
def intOfPyNumber : PyNumber → Except PyError Int
  | .int n => .ok n
  | .finiteFloat t => .ok t
  | .nan => .error .valueError
  | .posInf => .error .overflowError
  | .negInf => .error .overflowError

/-- The full argument domain of `parse_amount_bounds`. -/
inductive AmountInputFull where
  | none : AmountInputFull
  | num (x : PyNumber) : AmountInputFull
  | str (s : Str) : AmountInputFull

/-- `parse_amount_bounds` over its full domain: the numeric branch's
`int(amount)` can raise, which propagates to the caller; every other branch
returns normally (the string branch is `parse_amount_bounds` on `.str`). -/
def parse_amount_bounds_full : AmountInputFull → Except PyError (Option Int × Option Int)
  | .none => .ok (none, none)
  | .num x =>
    match intOfPyNumber x with
    | .ok v => .ok (some v, some v)
    | .error e => .error e
  | .str s => .ok (parse_amount_bounds (.str s))

/-- Counterexample to C10 as stated: the claim quantifies over every `float`
and asserts the function never raises, but on `float('nan')` the source's
`int(amount)` raises `ValueError`, and on `float('inf')` it raises
`OverflowError` — no pair is returned. -/
theorem parse_amount_bounds_raises_on_nan :
    parse_amount_bounds_full (.num .nan) = .error .valueError ∧
      parse_amount_bounds_full (.num .posInf) = .error .overflowError ∧
      parse_amount_bounds_full (.num .negInf) = .error .overflowError :=
  ⟨rfl, rfl, rfl⟩

/-- C10 amended: `parse_amount_bounds` maps `None` to `(None, None)`; an
`int` `n` and a finite `float` with truncation `t` to `(int(x), int(x))`; a
whitespace-only (hence also empty) string to `(None, None)`; and a string
with no digit to `(None, None)` — returning normally (never raising) on all
these inputs.  Only the non-finite floats, where `int()` itself raises,
escape: `ValueError` on NaN and `OverflowError` on the infinities. -/
theorem parse_amount_bounds_full_edge_inputs :
    parse_amount_bounds_full .none = .ok (none, none) ∧
      (∀ n : Int, parse_amount_bounds_full (.num (.int n)) = .ok (some n, some n)) ∧
      (∀ t : Int, parse_amount_bounds_full (.num (.finiteFloat t)) = .ok (some t, some t)) ∧
      (∀ s : Str, (∀ c ∈ s, isSpaceCode c = true) →
        parse_amount_bounds_full (.str s) = .ok (none, none)) ∧
      (∀ s : Str, (∀ c ∈ s, isDigitCode c = false) →
        parse_amount_bounds_full (.str s) = .ok (none, none)) := by
  refine ⟨rfl, fun n => rfl, fun t => rfl, fun s h => ?_, fun s h => ?_⟩
  · have hstrip : stripStr s = [] := by
      unfold stripStr
      have h1 : s.dropWhile isSpaceCode = [] :=
        List.dropWhile_eq_nil_iff.mpr h
      rw [h1]
      rfl
    simp [parse_amount_bounds_full, parse_amount_bounds, hstrip]
  · have hnums : amountNumbers (stripStr s) = [] := by
      unfold amountNumbers findNumberRuns
      rw [numberRunsGo_none_of_no_digit (fun c hc => h c (mem_stripStr_sub hc))]
      rfl
    simp only [parse_amount_bounds_full, parse_amount_bounds, hnums]
    split
    · rfl
    · rfl

/-- Witness for `parse_amount_bounds_full_edge_inputs` at the whitespace
string `"   "` and the digit-free string `"no digits"`. -/
theorem parse_amount_bounds_full_edge_inputs_witness :
    parse_amount_bounds_full (.str (codes "   ")) = .ok (none, none) ∧
      parse_amount_bounds_full (.str (codes "no digits")) = .ok (none, none) :=
  ⟨parse_amount_bounds_full_edge_inputs.2.2.2.1 (codes "   ") (by decide),
   parse_amount_bounds_full_edge_inputs.2.2.2.2 (codes "no digits") (by decide)⟩

/-! ### Row consolidators (src/disclosure_parser/split_schedules.py) -/

/-- A match of `\$[\d,]+` (with an irrelevant optional `(?:\.\d+)?` suffix)
starting at the head of the string. -/
def matchDollarAmountAt : Str → Bool
  | 36 :: c :: _ => isDigitCode c || c = 44
  | _ => false

/-- A match of one alternative of `VALUE_TOKEN_PATTERN`
(`Less than\s*\$[\d,]+|More than\s*\$[\d,]+|\$[\d,]+(?:\.\d+)?|None`,
case-insensitive) starting at the head of the already-lowercased string.
`\s*` is followed by `\$`, which is not whitespace, so the dollar sign can
only sit after all the leading whitespace. -/
def matchValueAltAt (t : Str) : Bool :=
  matchDollarAmountAt t ||
    (codes "none").isPrefixOf t ||
    ((codes "less than").isPrefixOf t && matchDollarAmountAt ((t.drop 9).dropWhile isSpaceCode)) ||
    ((codes "more than").isPrefixOf t && matchDollarAmountAt ((t.drop 9).dropWhile isSpaceCode))

/-- Worker for `valueTokenSearch`: try every start position. -/
def valueTokenSearchGo : Str → Bool
  | [] => false
  | c :: rest => matchValueAltAt (c :: rest) || valueTokenSearchGo rest

/-- Truthiness of `VALUE_TOKEN_PATTERN.search(s)`. -/
def valueTokenSearch (s : Str) : Bool := valueTokenSearchGo (lowerStr s)

/-- `looks_like_value = bool(value and (VALUE_TOKEN_PATTERN.search(value) or
value.lower() == "none"))` in `consolidate_schedule_a`. -/
def looksLikeValueA (value : Str) : Bool :=
  !value.isEmpty && (valueTokenSearch value || lowerStr value = codes "none")

/-- `list(raw_row[:n]) + ["" for _ in range(max(0, n - len(raw_row)))]`. -/
def padRow (n : Nat) (r : List Str) : List Str :=
  r.take n ++ List.replicate (n - r.length) []

/-- The guarded cell merge used by all consolidators:
`if add: cur = cur + (sep if cur else "") + add`. -/
def mergeCell (sep : Nat) (cur add : Str) : Str :=
  if add.isEmpty then cur else if cur.isEmpty then add else cur ++ sep :: add

/-- The continuation merge of `consolidate_schedule_a`: asset, owner,
income-type, income and tx-flag cells are newline-joined onto the current
primary row; the value cell of the continuation row is **not** merged. -/
def mergeIntoA (cur row : List Str) : List Str :=
  [mergeCell 10 (cur.getD 0 []) (row.getD 0 []),
   mergeCell 10 (cur.getD 1 []) (row.getD 1 []),
   cur.getD 2 [],
   mergeCell 10 (cur.getD 3 []) (row.getD 3 []),
   mergeCell 10 (cur.getD 4 []) (row.getD 4 []),
   mergeCell 10 (cur.getD 5 []) (row.getD 5 [])]

/-- The state-machine loop of `consolidate_schedule_a`. -/
def consolidateAGo : Option (List Str) → List (List Str) → List (List Str)
  | some c, [] => [c]
  | none, [] => []
  | cur, raw :: rest =>
    let row := padRow 6 raw
    let value := row.getD 2 []
    if !value.isEmpty && (looksLikeValueA value || cur.isNone) then
      match cur with
      | some c => c :: consolidateAGo (some row) rest
      | none => consolidateAGo (some row) rest
    else
      match cur with
      | none => consolidateAGo none rest
      | some c => consolidateAGo (some (mergeIntoA c row)) rest

/-- `consolidate_schedule_a` (src/disclosure_parser/split_schedules.py:999-1046). -/
def consolidate_schedule_a (rows : List (List Str)) : List (List Str) :=
  if rows.isEmpty then rows else consolidateAGo none rows

/-- The Python regex `\s+` collapse used by `clean_cell`: `prevSpace` records
whether the previous character belonged to a whitespace run already emitted
as a single space. -/
def collapseGo : Bool → Str → Str
  | _, [] => []
  | prevSpace, c :: rest =>
    if isSpaceCode c then
      if prevSpace then collapseGo true rest else 32 :: collapseGo true rest
    else c :: collapseGo false rest

/-- `clean_cell` of split_schedules.py: NUL and NBSP to spaces, strip, then
collapse internal whitespace runs to single spaces. -/
def cleanCell (s : Str) : Str :=
  collapseGo false (stripStr (s.map (fun c => if c = 0 || c = 160 then 32 else c)))

/-- `SCHEDULE_B_DESCRIPTION_PREFIXES`. -/
def scheduleBDescriptionPrefixes : List Str :=
  [codes "d :", codes "d:", codes "c :", codes "c:", codes "l :", codes "l:",
   codes "location :", codes "location:", codes "description :", codes "description:",
   codes "details :", codes "details:", codes "issuer :", codes "issuer:"]

/-- `is_schedule_b_description_fragment`. -/
def is_schedule_b_description_fragment (text : Str) : Bool :=
  !text.isEmpty &&
    scheduleBDescriptionPrefixes.any (fun p => p.isPrefixOf (lowerStr (cleanCell text)))

/-- A run of at least three consecutive ASCII letters (`[A-Za-z]{3,}`). -/
def hasThreeLetterRun : Str → Bool
  | a :: b :: c :: rest =>
    (isAlphaCode a && isAlphaCode b && isAlphaCode c) || hasThreeLetterRun (b :: c :: rest)
  | _ => false

/-- `is_noise_schedule_b_row`: `SCHEDULE_B_ASSET_NOISE_PATTERN` is
`^[\s\W\d]+$`, a non-empty string of characters that are not word characters
other than digits (i.e. neither an ASCII letter nor `_`). -/
def is_noise_schedule_b_row (row : List (List Nat)) : Bool :=
  if row.isEmpty then false
  else
    let assetText := cleanCell (row.getD 0 [])
    if assetText.isEmpty then false
    else if !assetText.isEmpty && assetText.all (fun c => !(isAlphaCode c || c = 95)) then true
    else if !(assetText.filter (fun c => !isSpaceCode c)).any isAlphaCode then true
    else if !hasThreeLetterRun assetText then true
    else false

/-- The description-fragment merge of `consolidate_schedule_b`: the asset cell
is appended unconditionally (newline-joined), the others only when non-empty
(owner newline-joined, the rest space-joined). -/
def mergeDescB (cur row : List Str) : List Str :=
  [(if (cur.getD 0 []).isEmpty then row.getD 0 []
    else cur.getD 0 [] ++ 10 :: row.getD 0 []),
   mergeCell 10 (cur.getD 1 []) (row.getD 1 []),
   mergeCell 32 (cur.getD 2 []) (row.getD 2 []),
   mergeCell 32 (cur.getD 3 []) (row.getD 3 []),
   mergeCell 32 (cur.getD 4 []) (row.getD 4 []),
   mergeCell 32 (cur.getD 5 []) (row.getD 5 [])]

/-- The plain continuation merge of `consolidate_schedule_b`: all six cells
guarded, asset and owner newline-joined, the rest space-joined. -/
def mergeContB (cur row : List Str) : List Str :=
  [mergeCell 10 (cur.getD 0 []) (row.getD 0 []),
   mergeCell 10 (cur.getD 1 []) (row.getD 1 []),
   mergeCell 32 (cur.getD 2 []) (row.getD 2 []),
   mergeCell 32 (cur.getD 3 []) (row.getD 3 []),
   mergeCell 32 (cur.getD 4 []) (row.getD 4 []),
   mergeCell 32 (cur.getD 5 []) (row.getD 5 [])]

/-- The state-machine loop of `consolidate_schedule_b`. -/
def consolidateBGo : Option (List Str) → List (List Str) → List (List Str)
  | some c, [] => [c]
  | none, [] => []
  | cur, raw :: rest =>
    let row := padRow 6 raw
    if is_schedule_b_description_fragment (row.getD 0 []) then
      match cur with
      | some c => consolidateBGo (some (mergeDescB c row)) rest
      | none => consolidateBGo none rest
    else
      let owner := row.getD 1 []
      let isNew :=
        (!owner.isEmpty && !(codes "L:").isPrefixOf owner && owner.length ≤ 4) ||
          !(row.getD 2 []).isEmpty || !(row.getD 3 []).isEmpty || !(row.getD 4 []).isEmpty
      if isNew then
        match cur with
        | some c => c :: consolidateBGo (some row) rest
        | none => consolidateBGo (some row) rest
      else
        match cur with
        | none => consolidateBGo (some row) rest
        | some c => consolidateBGo (some (mergeContB c row)) rest

/-- `consolidate_schedule_b` (src/disclosure_parser/split_schedules.py:1049-1107). -/
def consolidate_schedule_b (rows : List (List Str)) : List (List Str) :=
  if rows.isEmpty then rows
  else (consolidateBGo none rows).filter (fun r => !is_noise_schedule_b_row r)

/-- The continuation merge of `consolidate_schedule_d`: owner, creditor and
type newline-joined, date and amount space-joined; all five cells guarded. -/
def mergeIntoD (cur row : List Str) : List Str :=
  [mergeCell 10 (cur.getD 0 []) (row.getD 0 []),
   mergeCell 10 (cur.getD 1 []) (row.getD 1 []),
   mergeCell 32 (cur.getD 2 []) (row.getD 2 []),
   mergeCell 10 (cur.getD 3 []) (row.getD 3 []),
   mergeCell 32 (cur.getD 4 []) (row.getD 4 [])]

/-- `is_new` of `consolidate_schedule_d`: owner, creditor or date present,
with the `amount_new` refinements of the source. -/
def isNewD (cur : Option (List Str)) (row : List Str) : Bool :=
  let isNew0 := !(row.getD 0 []).isEmpty || !(row.getD 1 []).isEmpty || !(row.getD 2 []).isEmpty
  let amount := row.getD 4 []
  let amountNew := !amount.isEmpty && (valueTokenSearch amount || lowerStr amount = codes "none")
  if amountNew && isNew0 then true
  else if amountNew && cur.isNone then true
  else isNew0

/-- The state-machine loop of `consolidate_schedule_d`. -/
def consolidateDGo : Option (List Str) → List (List Str) → List (List Str)
  | some c, [] => [c]
  | none, [] => []
  | cur, raw :: rest =>
    let row := padRow 5 raw
    if isNewD cur row || cur.isNone then
      match cur with
      | some c => c :: consolidateDGo (some row) rest
      | none => consolidateDGo (some row) rest
    else
      match cur with
      | none => consolidateDGo (some row) rest
      | some c => consolidateDGo (some (mergeIntoD c row)) rest

/-- `consolidate_schedule_d` (src/disclosure_parser/split_schedules.py:1392-1440). -/
def consolidate_schedule_d (rows : List (List Str)) : List (List Str) :=
  if rows.isEmpty then rows else consolidateDGo none rows

/-! ### C6: consolidation never reorders records

The specification's reading of consolidation: the input is cut, in order, into
groups of one primary row followed by its run of continuation rows, and each
group is merged into one output record.  This grouping (in input order, each
continuation attached to the immediately preceding primary) is the declarative
counterpart against which the state-machine loops are compared. -/

/-- Grouping from the spec's words: the head of the remaining list is a
primary record; its continuations are exactly the following run of rows
satisfying `isCont`; groups appear in input order. -/
def groupByPrimary (isCont : List Str → Bool) : List (List Str) → List (List Str × List (List Str))
  | [] => []
  | r :: rest =>
    (r, rest.takeWhile isCont) :: groupByPrimary isCont (rest.dropWhile isCont)
termination_by l => l.length
decreasing_by
  simp only [List.length_cons]
  exact Nat.lt_succ_of_le ((List.dropWhile_sublist _).length_le)

/-- Merging one group: fold the continuation rows into the primary. -/
def mergeGroup (mergeInto : List Str → List Str → List Str)
    (g : List Str × List (List Str)) : List Str :=
  g.2.foldl mergeInto g.1

/-- A Schedule A continuation row: value cell empty or not a value token
(once a current primary exists). -/
def isContinuationA (r : List Str) : Bool :=
  !(!(r.getD 2 []).isEmpty && looksLikeValueA (r.getD 2 []))

/-- A Schedule D continuation row: no owner, creditor or date. -/
def isContinuationD (r : List Str) : Bool :=
  (r.getD 0 []).isEmpty && (r.getD 1 []).isEmpty && (r.getD 2 []).isEmpty

theorem consolidateAGo_some (c : List Str) (rows : List (List Str)) :
    consolidateAGo (some c) rows =
      mergeGroup mergeIntoA (c, (rows.map (padRow 6)).takeWhile isContinuationA) ::
        (groupByPrimary isContinuationA
          ((rows.map (padRow 6)).dropWhile isContinuationA)).map (mergeGroup mergeIntoA) := by
  induction rows generalizing c with
  | nil => simp [consolidateAGo, mergeGroup, groupByPrimary]
  | cons raw rest ih =>
    cases hcont : isContinuationA (padRow 6 raw) with
    | false =>
      have hX : (!((padRow 6 raw).getD 2 []).isEmpty &&
          looksLikeValueA ((padRow 6 raw).getD 2 [])) = true := by
        have h := hcont
        simp only [isContinuationA, Bool.not_eq_false'] at h
        exact h
      have hcond : (!((padRow 6 raw).getD 2 []).isEmpty &&
          (looksLikeValueA ((padRow 6 raw).getD 2 []) || (some c).isNone)) = true := by
        simp only [Option.isNone_some, Bool.or_false]
        exact hX
      simp only [consolidateAGo, hcond, if_pos]
      rw [ih (padRow 6 raw)]
      simp only [List.map_cons, List.takeWhile_cons, List.dropWhile_cons, hcont,
        Bool.false_eq_true, if_false, groupByPrimary, List.map_cons, mergeGroup,
        List.foldl_nil]
    | true =>
      have hX : (!((padRow 6 raw).getD 2 []).isEmpty &&
          looksLikeValueA ((padRow 6 raw).getD 2 [])) = false := by
        have h := hcont
        simp only [isContinuationA, Bool.not_eq_true'] at h
        exact h
      have hcond : (!((padRow 6 raw).getD 2 []).isEmpty &&
          (looksLikeValueA ((padRow 6 raw).getD 2 []) || (some c).isNone)) = false := by
        simp only [Option.isNone_some, Bool.or_false]
        exact hX
      simp only [consolidateAGo, hcond, Bool.false_eq_true, if_false]
      rw [ih (mergeIntoA c (padRow 6 raw))]
      simp only [List.map_cons, List.takeWhile_cons, List.dropWhile_cons, hcont, if_pos,
        mergeGroup, List.foldl_cons]

theorem consolidateAGo_none (rows : List (List Str)) :
    consolidateAGo none rows =
      (groupByPrimary isContinuationA
        ((rows.map (padRow 6)).dropWhile (fun r => (r.getD 2 []).isEmpty))).map
        (mergeGroup mergeIntoA) := by
  induction rows with
  | nil => simp [consolidateAGo, groupByPrimary]
  | cons raw rest ih =>
    cases hv : ((padRow 6 raw).getD 2 []).isEmpty with
    | true =>
      have hcond : (!((padRow 6 raw).getD 2 []).isEmpty &&
          (looksLikeValueA ((padRow 6 raw).getD 2 []) || (none : Option (List Str)).isNone)) = false := by
        rw [hv]
        rfl
      simp only [consolidateAGo, hcond, Bool.false_eq_true, if_false]
      rw [ih]
      simp only [List.map_cons, List.dropWhile_cons, hv, if_pos]
    | false =>
      have hcond : (!((padRow 6 raw).getD 2 []).isEmpty &&
          (looksLikeValueA ((padRow 6 raw).getD 2 []) || (none : Option (List Str)).isNone)) = true := by
        rw [hv]
        simp only [Bool.not_false, Option.isNone_none, Bool.or_true, Bool.and_true]
      simp only [consolidateAGo, hcond, if_pos]
      rw [consolidateAGo_some]
      simp only [List.map_cons, List.dropWhile_cons, hv, Bool.false_eq_true, if_false,
        groupByPrimary, List.map_cons]

theorem not_isContinuationD (r : List Str) :
    (!(r.getD 0 []).isEmpty || !(r.getD 1 []).isEmpty || !(r.getD 2 []).isEmpty) =
      !(isContinuationD r) := by
  simp [isContinuationD]

theorem isNewD_some (c : List Str) (row : List Str) :
    isNewD (some c) row = !(isContinuationD row) := by
  rw [← not_isContinuationD]
  unfold isNewD
  cases h0 : (!(row.getD 0 []).isEmpty || !(row.getD 1 []).isEmpty || !(row.getD 2 []).isEmpty) <;>
    cases ha : (!(row.getD 4 []).isEmpty &&
        (valueTokenSearch (row.getD 4 []) || lowerStr (row.getD 4 []) = codes "none")) <;>
    simp [h0, ha]

theorem consolidateDGo_some (c : List Str) (rows : List (List Str)) :
    consolidateDGo (some c) rows =
      mergeGroup mergeIntoD (c, (rows.map (padRow 5)).takeWhile isContinuationD) ::
        (groupByPrimary isContinuationD
          ((rows.map (padRow 5)).dropWhile isContinuationD)).map (mergeGroup mergeIntoD) := by
  induction rows generalizing c with
  | nil => simp [consolidateDGo, mergeGroup, groupByPrimary]
  | cons raw rest ih =>
    cases hcont : isContinuationD (padRow 5 raw) with
    | false =>
      have hcond : (isNewD (some c) (padRow 5 raw) || (some c).isNone) = true := by
        rw [isNewD_some, hcont]
        rfl
      simp only [consolidateDGo, hcond, if_pos]
      rw [ih (padRow 5 raw)]
      simp only [List.map_cons, List.takeWhile_cons, List.dropWhile_cons, hcont,
        Bool.false_eq_true, if_false, groupByPrimary, List.map_cons, mergeGroup,
        List.foldl_nil]
    | true =>
      have hcond : (isNewD (some c) (padRow 5 raw) || (some c).isNone) = false := by
        rw [isNewD_some, hcont]
        rfl
      simp only [consolidateDGo, hcond, Bool.false_eq_true, if_false]
      rw [ih (mergeIntoD c (padRow 5 raw))]
      simp only [List.map_cons, List.takeWhile_cons, List.dropWhile_cons, hcont, if_pos,
        mergeGroup, List.foldl_cons]

theorem consolidateDGo_none (rows : List (List Str)) :
    consolidateDGo none rows =
      (groupByPrimary isContinuationD (rows.map (padRow 5))).map (mergeGroup mergeIntoD) := by
  cases rows with
  | nil => simp [consolidateDGo, groupByPrimary]
  | cons raw rest =>
    have hcond : (isNewD none (padRow 5 raw) || (none : Option (List Str)).isNone) = true := by
      simp
    simp only [consolidateDGo, hcond, if_pos]
    rw [consolidateDGo_some]
    simp only [List.map_cons, groupByPrimary]

/-- C6: consolidation never reorders records.  `consolidate_schedule_a` (after
dropping leading rows with an empty value cell, which can never start a
record) and `consolidate_schedule_d` both equal the declarative grouping of
their input: the rows that become primary records appear in the output in
input order, and every continuation row is folded into exactly the primary
row that immediately precedes it. -/
theorem consolidate_never_reorders (rows : List (List Str)) :
    consolidate_schedule_a rows =
      (groupByPrimary isContinuationA
        ((rows.map (padRow 6)).dropWhile (fun r => (r.getD 2 []).isEmpty))).map
        (mergeGroup mergeIntoA) ∧
    consolidate_schedule_d rows =
      (groupByPrimary isContinuationD (rows.map (padRow 5))).map (mergeGroup mergeIntoD) := by
  constructor
  · cases rows with
    | nil => simp [consolidate_schedule_a, groupByPrimary]
    | cons raw rest =>
      rw [show consolidate_schedule_a (raw :: rest) = consolidateAGo none (raw :: rest) from rfl]
      exact consolidateAGo_none (raw :: rest)
  · cases rows with
    | nil => simp [consolidate_schedule_d, groupByPrimary]
    | cons raw rest =>
      rw [show consolidate_schedule_d (raw :: rest) = consolidateDGo none (raw :: rest) from rfl]
      exact consolidateDGo_none (raw :: rest)

/-! ### C1: content preservation under consolidation -/

/-- Counterexample to C1 as stated: `consolidate_schedule_a` silently drops
the non-empty value cell `"xx"` of a continuation row (its merge branch never
touches the value column), and `consolidate_schedule_b` drops an orphan
description-fragment row `"d: foo"` arriving before any primary row. -/
theorem consolidate_drops_cell_content :
    consolidate_schedule_a
        [[codes "a", [], codes "$5", [], [], []], [[], [], codes "xx", [], [], []]] =
      [[codes "a", [], codes "$5", [], [], []]] ∧
    consolidate_schedule_b [[codes "d: foo", [], [], [], [], []]] = [] := by
  constructor
  · decide
  · decide

theorem consolidateAGo_some_all_primary (rows : List (List Str))
    (h : ∀ r ∈ rows, looksLikeValueA ((padRow 6 r).getD 2 []) = true) :
    ∀ c, consolidateAGo (some c) rows = c :: rows.map (padRow 6) := by
  induction rows with
  | nil => intro c; rfl
  | cons raw rest ih =>
    intro c
    have hrow := h raw (by simp)
    have hne : (!((padRow 6 raw).getD 2 []).isEmpty) = true := by
      have h' := hrow
      unfold looksLikeValueA at h'
      rw [Bool.and_eq_true] at h'
      exact h'.1
    have hcond : (!((padRow 6 raw).getD 2 []).isEmpty &&
        (looksLikeValueA ((padRow 6 raw).getD 2 []) || (some c).isNone)) = true := by
      rw [hne, hrow]
      rfl
    simp only [consolidateAGo, hcond, if_pos, List.map_cons]
    rw [ih (fun r hr => h r (List.mem_cons_of_mem raw hr)) (padRow 6 raw)]

/-- C1 amended: `consolidate_schedule_a` drops the value cell of continuation
rows and any rows preceding the first primary row (and
`consolidate_schedule_b` likewise drops orphan description fragments and
noise rows); content is preserved when every row is a primary row: if every
row's value cell looks like a value token, `consolidate_schedule_a` returns
the input rows unchanged (padded to six cells), so every non-empty cell text
of the input appears in the output. -/
theorem consolidateA_all_primary_preserves (rows : List (List Str))
    (h : ∀ r ∈ rows, looksLikeValueA ((padRow 6 r).getD 2 []) = true) :
    consolidate_schedule_a rows = rows.map (padRow 6) := by
  cases rows with
  | nil => rfl
  | cons raw rest =>
    have hrow := h raw (by simp)
    have hne : (!((padRow 6 raw).getD 2 []).isEmpty) = true := by
      have h' := hrow
      unfold looksLikeValueA at h'
      rw [Bool.and_eq_true] at h'
      exact h'.1
    have hcond : (!((padRow 6 raw).getD 2 []).isEmpty &&
        (looksLikeValueA ((padRow 6 raw).getD 2 []) ||
          (none : Option (List Str)).isNone)) = true := by
      rw [hne]
      simp
    rw [show consolidate_schedule_a (raw :: rest) = consolidateAGo none (raw :: rest) from rfl]
    simp only [consolidateAGo, hcond, if_pos, List.map_cons]
    rw [consolidateAGo_some_all_primary rest
      (fun r hr => h r (List.mem_cons_of_mem raw hr)) (padRow 6 raw)]

/-- Witness for `consolidateA_all_primary_preserves` on two single-line
records with value cells `"$5"` and `"None"`. -/
theorem consolidateA_all_primary_preserves_witness :
    consolidate_schedule_a
        [[codes "a", codes "SP", codes "$5", [], [], []],
         [codes "b", [], codes "None", [], [], []]] =
      [[codes "a", codes "SP", codes "$5", [], [], []],
       [codes "b", [], codes "None", [], [], []]] := by
  have h := consolidateA_all_primary_preserves
    [[codes "a", codes "SP", codes "$5", [], [], []],
     [codes "b", [], codes "None", [], [], []]] (by decide)
  simpa using h

/-! ### Header detectors (src/disclosure_parser/split_schedules.py)

A pdfplumber word is a positioned token.  Coordinates are modelled as
integers; `HEADER_TOLERANCE = 3.0` becomes the strict bound `|Δ| < 3`.
Python `sorted(words, key=...)` is a stable sort, modelled by Mathlib's
(stable) insertion sort. -/

structure Word where
  text : Str
  x0 : Int
  top : Int
deriving DecidableEq

/-- `normalise_word_text`: NUL to space, then strip. -/
def normaliseWordText (s : Str) : Str :=
  stripStr (s.map (fun c => if c = 0 then 32 else c))

/-- `abs(a - b) < HEADER_TOLERANCE` with `HEADER_TOLERANCE = 3.0`. -/
def withinTol (a b : Int) : Bool := (a - b).natAbs < 3

/-- `normalise_word_text(w["text"]).lower() == label`. -/
def wordIs (label : Str) (w : Word) : Bool :=
  lowerStr (normaliseWordText w.text) = label

/-- `normalise_word_text(w["text"]).lower().startswith(label)`. -/
def wordStarts (label : Str) (w : Word) : Bool :=
  label.isPrefixOf (lowerStr (normaliseWordText w.text))

/-- `sorted(words, key=lambda w: w["top"])` (stable). -/
def sortByTop (l : List Word) : List Word :=
  List.insertionSort (fun a b => a.top ≤ b.top) l

/-- `sorted(ws, key=lambda w: w["x0"])` (stable). -/
def sortByX0 (l : List Word) : List Word :=
  List.insertionSort (fun a b => a.x0 ≤ b.x0) l

/-- Python `min(w["x0"] for w in ws)`: `ValueError` on an empty sequence. -/
def minX0 (ws : List Word) : Except Unit Int :=
  match ws.map (fun w => w.x0) with
  | [] => .error ()
  | x :: xs => .ok (xs.foldl min x)

/-- `header_words`: the words within the header tolerance of the anchor top. -/
def headerWordsAt (words : List Word) (top : Int) : List Word :=
  words.filter (fun v => withinTol v.top top)

/-- Body of `find_schedule_a_header` once the anchor word `w` (text `asset`,
with an `owner` companion) is fixed: per-label minima over the words within
tolerance of the anchor top, the single-income fallback `income_type + 80`,
and the `return None` exits for missing income/tx labels. -/
def scheduleAHeaderFrom (words : List Word) (w : Word) :
    Except Unit (Option (Int × List Int)) :=
  match minX0 ((headerWordsAt words w.top).filter (wordIs (codes "asset"))),
      minX0 ((headerWordsAt words w.top).filter (wordIs (codes "owner"))),
      minX0 ((headerWordsAt words w.top).filter (wordIs (codes "value"))) with
  | .ok assetStart, .ok ownerStart, .ok valueStart =>
    match sortByX0 ((headerWordsAt words w.top).filter (wordStarts (codes "income"))) with
    | [] => .ok none
    | iw0 :: iwRest =>
      match minX0 ((headerWordsAt words w.top).filter (wordStarts (codes "tx"))) with
      | .error _ => .ok none
      | .ok txStart =>
        .ok (some (w.top,
          [assetStart, ownerStart, valueStart, iw0.x0,
           (match iwRest with
            | [] => iw0.x0 + 80
            | iw1 :: _ => iw1.x0),
           txStart]))
  | _, _, _ => .error ()

/-- The scan loop of `find_schedule_a_header`: first word (in stable top
order) whose text is `asset` and which has an `owner` companion within
tolerance. -/
def findScheduleAHeaderGo (words : List Word) : List Word → Except Unit (Option (Int × List Int))
  | [] => .ok none
  | w :: rest =>
    if wordIs (codes "asset") w then
      if words.any (fun o => withinTol o.top w.top && wordIs (codes "owner") o) then
        scheduleAHeaderFrom words w
      else findScheduleAHeaderGo words rest
    else findScheduleAHeaderGo words rest

/-- `find_schedule_a_header` (src/disclosure_parser/split_schedules.py:459-521). -/
def find_schedule_a_header (words : List Word) : Except Unit (Option (Int × List Int)) :=
  findScheduleAHeaderGo words (sortByTop words)

/-- Body of `find_schedule_b_header` once the anchor word `w` is fixed:
per-label minima, with `return None` exits for missing tx/amount/cap labels. -/
def scheduleBHeaderFrom (words : List Word) (w : Word) :
    Except Unit (Option (Int × List Int)) :=
  match minX0 ((headerWordsAt words w.top).filter (wordIs (codes "asset"))),
      minX0 ((headerWordsAt words w.top).filter (wordIs (codes "owner"))),
      minX0 ((headerWordsAt words w.top).filter (wordIs (codes "date"))) with
  | .ok assetStart, .ok ownerStart, .ok dateStart =>
    match minX0 ((headerWordsAt words w.top).filter (wordStarts (codes "tx"))) with
    | .error _ => .ok none
    | .ok txStart =>
      match minX0 ((headerWordsAt words w.top).filter (wordStarts (codes "amount"))) with
      | .error _ => .ok none
      | .ok amountStart =>
        match minX0 ((headerWordsAt words w.top).filter (wordStarts (codes "cap"))) with
        | .error _ => .ok none
        | .ok capStart =>
          .ok (some (w.top,
            [assetStart, ownerStart, dateStart, txStart, amountStart, capStart]))
  | _, _, _ => .error ()

/-- The scan loop of `find_schedule_b_header`: the anchor must have both an
`owner` and a `date` companion within tolerance. -/
def findScheduleBHeaderGo (words : List Word) : List Word → Except Unit (Option (Int × List Int))
  | [] => .ok none
  | w :: rest =>
    if wordIs (codes "asset") w then
      if (words.any (fun o => withinTol o.top w.top && wordIs (codes "owner") o)) &&
          (words.any (fun o => withinTol o.top w.top && wordIs (codes "date") o)) then
        scheduleBHeaderFrom words w
      else findScheduleBHeaderGo words rest
    else findScheduleBHeaderGo words rest

/-- `find_schedule_b_header` (src/disclosure_parser/split_schedules.py:809-872). -/
def find_schedule_b_header (words : List Word) : Except Unit (Option (Int × List Int)) :=
  findScheduleBHeaderGo words (sortByTop words)

/-- A strictly increasing list of column starts. -/
def strictlyIncreasing : List Int → Bool
  | [] => true
  | [_] => true
  | a :: b :: rest => a < b && strictlyIncreasing (b :: rest)

/-! ### C7: the Schedule B detector requires companion labels -/

/-- An `asset` word accompanied, within the header tolerance of its top, by
both an `owner` word and a `date` word. -/
def hasCompanionsB (words : List Word) (w : Word) : Bool :=
  wordIs (codes "asset") w &&
    words.any (fun o => withinTol o.top w.top && wordIs (codes "owner") o) &&
    words.any (fun o => withinTol o.top w.top && wordIs (codes "date") o)

theorem findScheduleBHeaderGo_none (words : List Word) (l : List Word)
    (h : ∀ w ∈ l, hasCompanionsB words w = false) :
    findScheduleBHeaderGo words l = .ok none := by
  induction l with
  | nil => rfl
  | cons w rest ih =>
    have hw := h w (by simp)
    by_cases ha : wordIs (codes "asset") w = true
    · have hcomp : ((words.any (fun o => withinTol o.top w.top && wordIs (codes "owner") o)) &&
          (words.any (fun o => withinTol o.top w.top && wordIs (codes "date") o))) = false := by
        unfold hasCompanionsB at hw
        rw [ha, Bool.true_and] at hw
        exact hw
      simp only [findScheduleBHeaderGo, ha, if_pos, hcomp, Bool.false_eq_true, if_false]
      exact ih (fun v hv => h v (List.mem_cons_of_mem w hv))
    · simp only [findScheduleBHeaderGo, if_neg ha]
      exact ih (fun v hv => h v (List.mem_cons_of_mem w hv))

theorem findScheduleBHeaderGo_some (words : List Word) (l : List Word)
    {top : Int} {cs : List Int}
    (h : findScheduleBHeaderGo words l = .ok (some (top, cs))) :
    ∃ w ∈ l, hasCompanionsB words w = true := by
  induction l with
  | nil => simp [findScheduleBHeaderGo] at h
  | cons w rest ih =>
    by_cases ha : wordIs (codes "asset") w = true
    · by_cases hc : ((words.any (fun o => withinTol o.top w.top && wordIs (codes "owner") o)) &&
          (words.any (fun o => withinTol o.top w.top && wordIs (codes "date") o))) = true
      · refine ⟨w, by simp, ?_⟩
        unfold hasCompanionsB
        rw [ha, Bool.true_and]
        exact hc
      · unfold findScheduleBHeaderGo at h
        rw [if_pos ha, if_neg hc] at h
        obtain ⟨v, hv, hcomp⟩ := ih h
        exact ⟨v, List.mem_cons_of_mem w hv, hcomp⟩
    · simp only [findScheduleBHeaderGo, if_neg ha] at h
      obtain ⟨v, hv, hcomp⟩ := ih h
      exact ⟨v, List.mem_cons_of_mem w hv, hcomp⟩

theorem mem_sortByTop {v : Word} {l : List Word} : v ∈ sortByTop l ↔ v ∈ l :=
  (List.perm_insertionSort (fun a b : Word => a.top ≤ b.top) l).mem_iff

/-- C7: `find_schedule_b_header` returns "not found" whenever no `asset` word
has both an `owner` and a `date` companion within the header tolerance of its
top, and it returns a header descriptor only when such an anchor with its
companion labels exists. -/
theorem find_schedule_b_header_companions (words : List Word) :
    ((∀ w ∈ words, hasCompanionsB words w = false) →
      find_schedule_b_header words = .ok none) ∧
    (∀ top cs, find_schedule_b_header words = .ok (some (top, cs)) →
      ∃ w ∈ words, hasCompanionsB words w = true) := by
  constructor
  · intro h
    exact findScheduleBHeaderGo_none words (sortByTop words)
      (fun w hw => h w (mem_sortByTop.mp hw))
  · intro top cs h
    obtain ⟨w, hw, hcomp⟩ := findScheduleBHeaderGo_some words (sortByTop words) h
    exact ⟨w, mem_sortByTop.mp hw, hcomp⟩

/-- Witness for `find_schedule_b_header_companions`: a page whose only `asset`
word has an `owner` far below (outside tolerance) and no `date` at all is
reported as "not found". -/
theorem find_schedule_b_header_companions_witness :
    find_schedule_b_header
        [⟨codes "asset", 0, 0⟩, ⟨codes "owner", 50, 100⟩] = .ok none :=
  (find_schedule_b_header_companions
    [⟨codes "asset", 0, 0⟩, ⟨codes "owner", 50, 100⟩]).1 (by decide)

/-! ### C5: the column starts are per-label minima, not enforced monotone -/

deriving instance DecidableEq for Except

/-- Counterexample to C5 as stated: a header whose labels are laid out out of
order (`owner` left of `asset`, a lone `income` word whose `+80` fallback
overshoots `tx`) yields a descriptor whose column starts are not monotone. -/
theorem header_starts_not_monotonic :
    find_schedule_a_header
        [⟨codes "asset", 100, 0⟩, ⟨codes "owner", 50, 0⟩, ⟨codes "value", 60, 0⟩,
         ⟨codes "income", 70, 0⟩, ⟨codes "tx", 80, 0⟩] =
      .ok (some (0, [100, 50, 60, 70, 150, 80])) ∧
    strictlyIncreasing [100, 50, 60, 70, 150, 80] = false := by
  constructor
  · decide
  · decide

/-- From the spec's words: a column's start-x is the minimum x among words
whose (normalised, lowercased) text equals the column's label, within the
header tolerance of the anchor top. -/
def labelMinX (words : List Word) (top : Int) (label : Str) : Option Int :=
  ((words.filter (fun v => withinTol v.top top && wordIs label v)).map (fun v => v.x0)).min?

/-- As `labelMinX`, for the prefix-matched labels (`income…`, `tx…`, …). -/
def prefixLabelMinX (words : List Word) (top : Int) (label : Str) : Option Int :=
  ((words.filter (fun v => withinTol v.top top && wordStarts label v)).map (fun v => v.x0)).min?

/-- The Schedule A income column start: the second-leftmost `income…` word,
or the leftmost plus 80 when only one exists. -/
def incomeStartSpec (words : List Word) (top : Int) : Option Int :=
  match sortByX0 (words.filter (fun v => withinTol v.top top && wordStarts (codes "income") v)) with
  | [] => none
  | [iw0] => some (iw0.x0 + 80)
  | _ :: iw1 :: _ => some iw1.x0

theorem filter_headerWordsAt (words : List Word) (top : Int) (pred : Word → Bool) :
    (headerWordsAt words top).filter pred =
      words.filter (fun v => withinTol v.top top && pred v) := by
  unfold headerWordsAt
  rw [List.filter_filter]
  exact List.filter_congr (fun v _ => Bool.and_comm (pred v) (withinTol v.top top))

theorem minX0_ok_iff {ws : List Word} {v : Int} :
    minX0 ws = .ok v ↔ (ws.map (fun w => w.x0)).min? = some v := by
  unfold minX0
  cases h : ws.map (fun w => w.x0) with
  | nil => simp [List.min?]
  | cons x xs => simp [List.min?]

theorem sortByX0_head_min {l : List Word} {w : Word} {ws : List Word}
    (h : sortByX0 l = w :: ws) :
    (l.map (fun v => v.x0)).min? = some w.x0 := by
  haveI : IsTotal Word (fun a b : Word => a.x0 ≤ b.x0) := ⟨fun a b => Int.le_total a.x0 b.x0⟩
  haveI : IsTrans Word (fun a b : Word => a.x0 ≤ b.x0) := ⟨fun a b c hab hbc => le_trans hab hbc⟩
  have hsorted := List.sorted_insertionSort (fun a b : Word => a.x0 ≤ b.x0) l
  have hperm := List.perm_insertionSort (fun a b : Word => a.x0 ≤ b.x0) l
  rw [show List.insertionSort (fun a b : Word => a.x0 ≤ b.x0) l = sortByX0 l from rfl,
    h] at hsorted
  rw [show List.insertionSort (fun a b : Word => a.x0 ≤ b.x0) l = sortByX0 l from rfl,
    h] at hperm
  haveI : Std.Antisymm (fun x1 x2 : Int => x1 ≤ x2) := ⟨fun h1 h2 => le_antisymm h1 h2⟩
  refine (List.min?_eq_some_iff (fun a => le_refl a) (fun a b => min_choice a b)
    (fun a b c => le_min_iff)).mpr ⟨?_, ?_⟩
  · exact List.mem_map_of_mem _ (hperm.mem_iff.mp (by simp))
  · intro b hb
    obtain ⟨v, hv, rfl⟩ := List.mem_map.mp hb
    have hvmem : v ∈ w :: ws := hperm.mem_iff.mpr hv
    rcases List.mem_cons.mp hvmem with rfl | hvmem
    · exact le_refl _
    · exact (List.sorted_cons.mp hsorted).1 v hvmem

theorem scheduleAHeaderFrom_ok {words : List Word} {w : Word} {top : Int} {cs : List Int}
    (h : scheduleAHeaderFrom words w = .ok (some (top, cs))) :
    top = w.top ∧
      cs.map some =
        [labelMinX words w.top (codes "asset"), labelMinX words w.top (codes "owner"),
         labelMinX words w.top (codes "value"), prefixLabelMinX words w.top (codes "income"),
         incomeStartSpec words w.top, prefixLabelMinX words w.top (codes "tx")] := by
  unfold scheduleAHeaderFrom at h
  cases hA : minX0 ((headerWordsAt words w.top).filter (wordIs (codes "asset"))) with
  | error e => rw [hA] at h; exact absurd h (by simp)
  | ok assetStart =>
  cases hO : minX0 ((headerWordsAt words w.top).filter (wordIs (codes "owner"))) with
  | error e => rw [hA, hO] at h; exact absurd h (by simp)
  | ok ownerStart =>
  cases hV : minX0 ((headerWordsAt words w.top).filter (wordIs (codes "value"))) with
  | error e => rw [hA, hO, hV] at h; exact absurd h (by simp)
  | ok valueStart =>
  rw [hA, hO, hV] at h
  simp only [] at h
  cases hI : sortByX0 ((headerWordsAt words w.top).filter (wordStarts (codes "income"))) with
  | nil => rw [hI] at h; exact absurd h (by simp)
  | cons iw0 iwRest =>
  rw [hI] at h
  cases hT : minX0 ((headerWordsAt words w.top).filter (wordStarts (codes "tx"))) with
  | error e => rw [hT] at h; exact absurd h (by simp)
  | ok txStart =>
  rw [hT] at h
  simp only [Except.ok.injEq, Option.some.injEq, Prod.mk.injEq] at h
  obtain ⟨htop, hcs⟩ := h
  refine ⟨htop.symm, ?_⟩
  have hIncFused :
      sortByX0 (words.filter (fun v => withinTol v.top w.top && wordStarts (codes "income") v)) =
        iw0 :: iwRest := by
    rw [← filter_headerWordsAt]
    exact hI
  have hAsset : labelMinX words w.top (codes "asset") = some assetStart := by
    unfold labelMinX
    rw [← filter_headerWordsAt]
    exact minX0_ok_iff.mp hA
  have hOwner : labelMinX words w.top (codes "owner") = some ownerStart := by
    unfold labelMinX
    rw [← filter_headerWordsAt]
    exact minX0_ok_iff.mp hO
  have hValue : labelMinX words w.top (codes "value") = some valueStart := by
    unfold labelMinX
    rw [← filter_headerWordsAt]
    exact minX0_ok_iff.mp hV
  have hIncomeType : prefixLabelMinX words w.top (codes "income") = some iw0.x0 := by
    unfold prefixLabelMinX
    exact sortByX0_head_min hIncFused
  have hTx : prefixLabelMinX words w.top (codes "tx") = some txStart := by
    unfold prefixLabelMinX
    rw [← filter_headerWordsAt]
    exact minX0_ok_iff.mp hT
  cases iwRest with
  | nil =>
    have hIncome : incomeStartSpec words w.top = some (iw0.x0 + 80) := by
      unfold incomeStartSpec
      rw [hIncFused]
    rw [← hcs, hAsset, hOwner, hValue, hIncomeType, hIncome, hTx]
    rfl
  | cons iw1 rest' =>
    have hIncome : incomeStartSpec words w.top = some iw1.x0 := by
      unfold incomeStartSpec
      rw [hIncFused]
    rw [← hcs, hAsset, hOwner, hValue, hIncomeType, hIncome, hTx]
    rfl

theorem scheduleBHeaderFrom_ok {words : List Word} {w : Word} {top : Int} {cs : List Int}
    (h : scheduleBHeaderFrom words w = .ok (some (top, cs))) :
    top = w.top ∧
      cs.map some =
        [labelMinX words w.top (codes "asset"), labelMinX words w.top (codes "owner"),
         labelMinX words w.top (codes "date"), prefixLabelMinX words w.top (codes "tx"),
         prefixLabelMinX words w.top (codes "amount"),
         prefixLabelMinX words w.top (codes "cap")] := by
  unfold scheduleBHeaderFrom at h
  cases hA : minX0 ((headerWordsAt words w.top).filter (wordIs (codes "asset"))) with
  | error e => rw [hA] at h; exact absurd h (by simp)
  | ok assetStart =>
  cases hO : minX0 ((headerWordsAt words w.top).filter (wordIs (codes "owner"))) with
  | error e => rw [hA, hO] at h; exact absurd h (by simp)
  | ok ownerStart =>
  cases hD : minX0 ((headerWordsAt words w.top).filter (wordIs (codes "date"))) with
  | error e => rw [hA, hO, hD] at h; exact absurd h (by simp)
  | ok dateStart =>
  rw [hA, hO, hD] at h
  simp only [] at h
  cases hT : minX0 ((headerWordsAt words w.top).filter (wordStarts (codes "tx"))) with
  | error e => rw [hT] at h; exact absurd h (by simp)
  | ok txStart =>
  rw [hT] at h
  cases hAm : minX0 ((headerWordsAt words w.top).filter (wordStarts (codes "amount"))) with
  | error e => rw [hAm] at h; exact absurd h (by simp)
  | ok amountStart =>
  rw [hAm] at h
  cases hC : minX0 ((headerWordsAt words w.top).filter (wordStarts (codes "cap"))) with
  | error e => rw [hC] at h; exact absurd h (by simp)
  | ok capStart =>
  rw [hC] at h
  simp only [Except.ok.injEq, Option.some.injEq, Prod.mk.injEq] at h
  obtain ⟨htop, hcs⟩ := h
  refine ⟨htop.symm, ?_⟩
  rw [← hcs]
  unfold labelMinX prefixLabelMinX
  rw [← filter_headerWordsAt, ← filter_headerWordsAt, ← filter_headerWordsAt,
    ← filter_headerWordsAt, ← filter_headerWordsAt, ← filter_headerWordsAt,
    minX0_ok_iff.mp hA, minX0_ok_iff.mp hO, minX0_ok_iff.mp hD,
    minX0_ok_iff.mp hT, minX0_ok_iff.mp hAm, minX0_ok_iff.mp hC]
  rfl

theorem findScheduleAHeaderGo_ok {words : List Word} {l : List Word} {top : Int}
    {cs : List Int} (h : findScheduleAHeaderGo words l = .ok (some (top, cs))) :
    ∃ w, scheduleAHeaderFrom words w = .ok (some (top, cs)) := by
  induction l with
  | nil => simp [findScheduleAHeaderGo] at h
  | cons w rest ih =>
    unfold findScheduleAHeaderGo at h
    by_cases ha : wordIs (codes "asset") w = true
    · rw [if_pos ha] at h
      by_cases ho : (words.any
          (fun o => withinTol o.top w.top && wordIs (codes "owner") o)) = true
      · rw [if_pos ho] at h
        exact ⟨w, h⟩
      · rw [if_neg ho] at h
        exact ih h
    · rw [if_neg ha] at h
      exact ih h

theorem findScheduleBHeaderGo_ok {words : List Word} {l : List Word} {top : Int}
    {cs : List Int} (h : findScheduleBHeaderGo words l = .ok (some (top, cs))) :
    ∃ w, scheduleBHeaderFrom words w = .ok (some (top, cs)) := by
  induction l with
  | nil => simp [findScheduleBHeaderGo] at h
  | cons w rest ih =>
    unfold findScheduleBHeaderGo at h
    by_cases ha : wordIs (codes "asset") w = true
    · rw [if_pos ha] at h
      by_cases ho : ((words.any (fun o => withinTol o.top w.top && wordIs (codes "owner") o)) &&
          (words.any (fun o => withinTol o.top w.top && wordIs (codes "date") o))) = true
      · rw [if_pos ho] at h
        exact ⟨w, h⟩
      · rw [if_neg ho] at h
        exact ih h
    · rw [if_neg ha] at h
      exact ih h

/-- C5 amended: the column starts returned by the Schedule A and Schedule B
header detectors are exactly the per-label leftmost x-positions within the
header tolerance of the returned header top (with Schedule A's income start
falling back to income-type + 80 when a single `income…` word exists) — in
left-to-right schedule order, but **not** enforced to be monotonically
increasing: the list is increasing exactly when those label positions are. -/
theorem header_column_starts_characterization (words : List Word) :
    (∀ top cs, find_schedule_a_header words = .ok (some (top, cs)) →
      cs.map some =
        [labelMinX words top (codes "asset"), labelMinX words top (codes "owner"),
         labelMinX words top (codes "value"), prefixLabelMinX words top (codes "income"),
         incomeStartSpec words top, prefixLabelMinX words top (codes "tx")]) ∧
    (∀ top cs, find_schedule_b_header words = .ok (some (top, cs)) →
      cs.map some =
        [labelMinX words top (codes "asset"), labelMinX words top (codes "owner"),
         labelMinX words top (codes "date"), prefixLabelMinX words top (codes "tx"),
         prefixLabelMinX words top (codes "amount"),
         prefixLabelMinX words top (codes "cap")]) := by
  constructor
  · intro top cs h
    obtain ⟨w, hw⟩ := findScheduleAHeaderGo_ok h
    obtain ⟨htop, hcs⟩ := scheduleAHeaderFrom_ok hw
    rw [htop]
    exact hcs
  · intro top cs h
    obtain ⟨w, hw⟩ := findScheduleBHeaderGo_ok h
    obtain ⟨htop, hcs⟩ := scheduleBHeaderFrom_ok hw
    rw [htop]
    exact hcs

/-- Witness for `header_column_starts_characterization` on a well-laid-out
Schedule A header (two income words, labels left to right). -/
theorem header_column_starts_characterization_witness :
    ([10, 60, 110, 160, 210, 260] : List Int).map some =
      [labelMinX
        [⟨codes "asset", 10, 0⟩, ⟨codes "owner", 60, 0⟩, ⟨codes "value", 110, 0⟩,
         ⟨codes "income", 160, 0⟩, ⟨codes "income", 210, 0⟩, ⟨codes "tx", 260, 0⟩] 0
        (codes "asset"),
       labelMinX
        [⟨codes "asset", 10, 0⟩, ⟨codes "owner", 60, 0⟩, ⟨codes "value", 110, 0⟩,
         ⟨codes "income", 160, 0⟩, ⟨codes "income", 210, 0⟩, ⟨codes "tx", 260, 0⟩] 0
        (codes "owner"),
       labelMinX
        [⟨codes "asset", 10, 0⟩, ⟨codes "owner", 60, 0⟩, ⟨codes "value", 110, 0⟩,
         ⟨codes "income", 160, 0⟩, ⟨codes "income", 210, 0⟩, ⟨codes "tx", 260, 0⟩] 0
        (codes "value"),
       prefixLabelMinX
        [⟨codes "asset", 10, 0⟩, ⟨codes "owner", 60, 0⟩, ⟨codes "value", 110, 0⟩,
         ⟨codes "income", 160, 0⟩, ⟨codes "income", 210, 0⟩, ⟨codes "tx", 260, 0⟩] 0
        (codes "income"),
       incomeStartSpec
        [⟨codes "asset", 10, 0⟩, ⟨codes "owner", 60, 0⟩, ⟨codes "value", 110, 0⟩,
         ⟨codes "income", 160, 0⟩, ⟨codes "income", 210, 0⟩, ⟨codes "tx", 260, 0⟩] 0,
       prefixLabelMinX
        [⟨codes "asset", 10, 0⟩, ⟨codes "owner", 60, 0⟩, ⟨codes "value", 110, 0⟩,
         ⟨codes "income", 160, 0⟩, ⟨codes "income", 210, 0⟩, ⟨codes "tx", 260, 0⟩] 0
        (codes "tx")] :=
  (header_column_starts_characterization
    [⟨codes "asset", 10, 0⟩, ⟨codes "owner", 60, 0⟩, ⟨codes "value", 110, 0⟩,
     ⟨codes "income", 160, 0⟩, ⟨codes "income", 210, 0⟩, ⟨codes "tx", 260, 0⟩]).1
    0 [10, 60, 110, 160, 210, 260] (by decide)

/-! ### C9: the column assigners are pure, deterministic, and total on
six-element boundary lists -/

/-- `COLUMN_NAMES_A = SCHEDULE_COLUMNS["A"]`. -/
def COLUMN_NAMES_A : List Str :=
  [codes "Asset", codes "Owner", codes "Value of Asset", codes "Income Type(s)",
   codes "Income", codes "Tx. > $1,000?"]

/-- `COLUMN_NAMES_B = SCHEDULE_COLUMNS["B"]`. -/
def COLUMN_NAMES_B : List Str :=
  [codes "Asset", codes "Owner", codes "Date", codes "Tx. Type", codes "Amount",
   codes "Cap. Gains > $200?"]

/-- `assign_schedule_a_column` (src/disclosure_parser/split_schedules.py:524-541).
All five limits are computed up front from `column_starts[1..5]`, so a
boundary list shorter than six raises `IndexError`, modelled as `none`. -/
def assign_schedule_a_column (x0 : Int) (columnStarts : List Int) : Option Str :=
  match columnStarts with
  | _ :: c1 :: c2 :: c3 :: c4 :: c5 :: _ =>
    some
      (if x0 < c1 - 15 then COLUMN_NAMES_A.getD 0 []
       else if x0 < c2 - 5 then COLUMN_NAMES_A.getD 1 []
       else if x0 < c3 - 5 then COLUMN_NAMES_A.getD 2 []
       else if x0 < c4 - 5 then COLUMN_NAMES_A.getD 3 []
       else if x0 < c5 - 5 then COLUMN_NAMES_A.getD 4 []
       else COLUMN_NAMES_A.getD 5 [])
  | _ => none

/-- `assign_schedule_b_column` (src/disclosure_parser/split_schedules.py:875-892). -/
def assign_schedule_b_column (x0 : Int) (columnStarts : List Int) : Option Str :=
  match columnStarts with
  | _ :: c1 :: c2 :: c3 :: c4 :: c5 :: _ =>
    some
      (if x0 < c1 - 15 then COLUMN_NAMES_B.getD 0 []
       else if x0 < c2 - 5 then COLUMN_NAMES_B.getD 1 []
       else if x0 < c3 - 5 then COLUMN_NAMES_B.getD 2 []
       else if x0 < c4 - 5 then COLUMN_NAMES_B.getD 3 []
       else if x0 < c5 - 5 then COLUMN_NAMES_B.getD 4 []
       else COLUMN_NAMES_B.getD 5 [])
  | _ => none

/-- C9: the column assigners are pure and deterministic — two evaluations on
equal `(x, boundaries)` pairs yield the same column name, the result being a
function of those two arguments alone — and every name they return is one of
the schedule's six column names. -/
theorem assign_column_deterministic :
    (∀ (x : Int) (cs : List Int) (x' : Int) (cs' : List Int), x = x' → cs = cs' →
      assign_schedule_a_column x cs = assign_schedule_a_column x' cs' ∧
        assign_schedule_b_column x cs = assign_schedule_b_column x' cs') ∧
    (∀ (x : Int) (cs : List Int) (n : Str),
      assign_schedule_a_column x cs = some n → n ∈ COLUMN_NAMES_A) ∧
    (∀ (x : Int) (cs : List Int) (n : Str),
      assign_schedule_b_column x cs = some n → n ∈ COLUMN_NAMES_B) := by
  refine ⟨fun x cs x' cs' hx hcs => by rw [hx, hcs]; exact ⟨rfl, rfl⟩, ?_, ?_⟩
  · intro x cs n h
    unfold assign_schedule_a_column at h
    split at h
    · rw [Option.some.injEq] at h
      subst h
      split_ifs <;> decide
    · exact absurd h (by simp)
  · intro x cs n h
    unfold assign_schedule_b_column at h
    split at h
    · rw [Option.some.injEq] at h
      subst h
      split_ifs <;> decide
    · exact absurd h (by simp)

/-- Witness for `assign_column_deterministic` at `x = 100` and the boundary
list `[10, 60, 110, 160, 210, 260]`. -/
theorem assign_column_deterministic_witness :
    assign_schedule_a_column 100 [10, 60, 110, 160, 210, 260] =
        assign_schedule_a_column 100 [10, 60, 110, 160, 210, 260] ∧
      codes "Owner" ∈ COLUMN_NAMES_A :=
  ⟨(assign_column_deterministic.1 100 [10, 60, 110, 160, 210, 260]
      100 [10, 60, 110, 160, 210, 260] rfl rfl).1,
   assign_column_deterministic.2.1 100 [10, 60, 110, 160, 210, 260]
     (codes "Owner") (by decide)⟩

/-! ### C8: `process_filings` fails before producing output -/

/-- A file-system effect of `process_filings`, in order of occurrence. -/
inductive FsEvent where
  | readPdf (file : Nat) : FsEvent
  | mkdirParent : FsEvent
  | writeWorkbook : FsEvent
deriving DecidableEq

/-- `process_filings` (src/alaska_project/process_pofd_reports.py:455-486),
its file-system effects abstracted to an event trace: the
`input_dir.exists()` check and the empty-glob check run before any PDF is
read or any output written; per-PDF row gathering is the collaborator
parameter `gather`; on success the workbook is written after the mkdir of
the output parent. -/
def process_filings (dirExists : Bool) (pdfFiles : List Nat)
    (gather : Nat → List (List Str)) :
    List FsEvent × Except Str (List (List Str)) :=
  if !dirExists then
    ([], .error (codes "Input directory does not exist"))
  else
    match pdfFiles with
    | [] => ([], .error (codes "No PDF files found"))
    | _ =>
      (pdfFiles.map FsEvent.readPdf ++ [FsEvent.mkdirParent, FsEvent.writeWorkbook],
       .ok (pdfFiles.map gather).flatten)

/-- C8: when the input directory does not exist or holds no PDF file,
`process_filings` raises `FileNotFoundError` before producing any output:
the result is an error and the effect trace is empty — in particular no
workbook write occurs. -/
theorem process_filings_fails_before_output (dirExists : Bool) (pdfFiles : List Nat)
    (gather : Nat → List (List Str))
    (h : dirExists = false ∨ pdfFiles = []) :
    (∃ msg, process_filings dirExists pdfFiles gather = ([], .error msg)) ∧
      FsEvent.writeWorkbook ∉ (process_filings dirExists pdfFiles gather).1 := by
  rcases h with h | h
  · subst h
    exact ⟨⟨codes "Input directory does not exist", rfl⟩, by simp [process_filings]⟩
  · subst h
    cases dirExists with
    | false =>
      exact ⟨⟨codes "Input directory does not exist", rfl⟩, by simp [process_filings]⟩
    | true =>
      exact ⟨⟨codes "No PDF files found", rfl⟩, by simp [process_filings]⟩

/-- Witness for `process_filings_fails_before_output`: a missing directory
with one PDF name, and an existing directory with no PDFs. -/
theorem process_filings_fails_before_output_witness :
    (∃ msg, process_filings false [1] (fun _ => []) = ([], .error msg)) ∧
      (∃ msg, process_filings true [] (fun _ => []) = ([], .error msg)) :=
  ⟨(process_filings_fails_before_output false [1] (fun _ => []) (Or.inl rfl)).1,
   (process_filings_fails_before_output true [] (fun _ => []) (Or.inr rfl)).1⟩

end Disclosure
